import Mathlib

/-!
# SPSC ring-buffer queue (`examples/SPSC无锁队列示例.cpp`)

Sequential model of `SPSCQueue<T, Capacity>`.

* `size_t` values are natural numbers, every `size_t` operation that can wrap is
  written with an explicit `% 2 ^ 64`;
* the two atomics `head_` / `tail_` are plain fields (each call is one atomic step of
  the sequential model, memory orderings have no sequential content);
* `buffer_` (a `std::array<T, Capacity>`) is a list; an index outside the array is
  undefined behaviour in the source and makes the modelled call return `none`;
* `pop(T& item)` takes the value of the caller's variable and returns its new value.
-/

namespace SPSC

/-- The value of `Capacity - 1` computed in `size_t` arithmetic. -/
def capMask (Capacity : Nat) : Nat :=
  (Capacity + 2 ^ 64 - 1) % 2 ^ 64

/-- The predicate of the `static_assert`: `(Capacity & (Capacity - 1)) == 0`. -/
def capacityCheck (Capacity : Nat) : Bool :=
  (Capacity &&& capMask Capacity) == 0

/-- The data members of `SPSCQueue<T, Capacity>`. -/
structure SPSCQueue (T : Type) where
  head_ : Nat
  tail_ : Nat
  buffer_ : List T
deriving DecidableEq

/-- The constructor `SPSCQueue() : head_(0), tail_(0) {}`; `buf` is whatever the
array holds after default initialisation. -/
def SPSCQueue.new {T : Type} (buf : List T) : SPSCQueue T :=
  { head_ := 0, tail_ := 0, buffer_ := buf }

/-- The method `bool push(const T& item)`. -/
def push {T : Type} (Capacity : Nat) (q : SPSCQueue T) (item : T) :
    Option (Bool × SPSCQueue T) :=
  let head := q.head_
  let next := ((head + 1) % 2 ^ 64) &&& capMask Capacity
  if next = q.tail_ then
    some (false, q)
  else if head < q.buffer_.length then
    some (true, { q with buffer_ := q.buffer_.set head item, head_ := next })
  else
    none

/-- The method `bool pop(T& item)`. -/
def pop {T : Type} (Capacity : Nat) (q : SPSCQueue T) (item : T) :
    Option (Bool × T × SPSCQueue T) :=
  let tail := q.tail_
  if tail = q.head_ then
    some (false, item, q)
  else
    match q.buffer_[tail]? with
    | some v =>
      some (true, v, { q with tail_ := ((tail + 1) % 2 ^ 64) &&& capMask Capacity })
    | none => none

/-- The method `size_t size() const`. -/
def size {T : Type} (Capacity : Nat) (q : SPSCQueue T) : Nat :=
  ((q.head_ + 2 ^ 64 - q.tail_) % 2 ^ 64) &&& capMask Capacity

/-- The method `bool empty() const`. -/
def empty {T : Type} (q : SPSCQueue T) : Bool :=
  q.head_ == q.tail_

/-- The difference `head_ - tail_` of the two stored cursors in `size_t` arithmetic
(the operand that `size()` masks). -/
def cursorDiff {T : Type} (q : SPSCQueue T) : Nat :=
  (q.head_ + 2 ^ 64 - q.tail_) % 2 ^ 64

/-- One call made by the (single) caller: `push(item)`, or `pop(item)` where `item`
is the value the caller's output variable holds before the call. -/
inductive Call (T : Type) where
  | push (item : T)
  | pop (item : T)
deriving DecidableEq

/-- What a call hands back: the `bool` of `push`, or the `bool` of `pop` together
with the value of the output variable after the call. -/
inductive Result (T : Type) where
  | push (ok : Bool)
  | pop (ok : Bool) (item : T)
deriving DecidableEq

/-- One call on the queue. -/
def step {T : Type} (Capacity : Nat) (q : SPSCQueue T) :
    Call T → Option (Result T × SPSCQueue T)
  | Call.push x =>
    match push Capacity q x with
    | some (ok, q1) => some (Result.push ok, q1)
    | none => none
  | Call.pop d =>
    match pop Capacity q d with
    | some (ok, v, q1) => some (Result.pop ok v, q1)
    | none => none

/-- A sequence of calls, one after the other, with the results in call order. -/
def run {T : Type} (Capacity : Nat) : SPSCQueue T → List (Call T) →
    Option (List (Result T) × SPSCQueue T)
  | q, [] => some ([], q)
  | q, c :: cs =>
    match step Capacity q c with
    | some (r, q1) =>
      match run Capacity q1 cs with
      | some (rs, q2) => some (r :: rs, q2)
      | none => none
    | none => none

/-! ## Reference FIFO queue (written from the specification's words) -/

/-- Reference `push`: fails exactly when the list already holds `Capacity - 1` items. -/
def refPush {T : Type} (Capacity : Nat) (l : List T) (x : T) : Bool × List T :=
  if l.length = Capacity - 1 then (false, l) else (true, l ++ [x])

/-- Reference `pop`: fails exactly when the list is empty, otherwise hands out the
oldest item. -/
def refPop {T : Type} (l : List T) (item : T) : Bool × T × List T :=
  match l with
  | [] => (false, item, [])
  | x :: r => (true, x, r)

/-- One call on the reference queue. -/
def refStep {T : Type} (Capacity : Nat) (l : List T) : Call T → Result T × List T
  | Call.push x => (Result.push (refPush Capacity l x).1, (refPush Capacity l x).2)
  | Call.pop d => (Result.pop (refPop l d).1 (refPop l d).2.1, (refPop l d).2.2)

/-- A sequence of calls on the reference queue. -/
def refRun {T : Type} (Capacity : Nat) : List T → List (Call T) → List (Result T) × List T
  | l, [] => ([], l)
  | l, c :: cs =>
    ((refStep Capacity l c).1 :: (refRun Capacity (refStep Capacity l c).2 cs).1,
      (refRun Capacity (refStep Capacity l c).2 cs).2)

/-- Number of `push` calls that returned `true`. -/
def pushesOk {T : Type} : List (Result T) → Nat
  | [] => 0
  | Result.push true :: rs => pushesOk rs + 1
  | _ :: rs => pushesOk rs

/-- Number of `pop` calls that returned `true`. -/
def popsOk {T : Type} : List (Result T) → Nat
  | [] => 0
  | Result.pop true _ :: rs => popsOk rs + 1
  | _ :: rs => popsOk rs

/-! ## Representation invariant -/

/-- The queue `q` of capacity `C` holds exactly the items of `l`, oldest first:
both cursors index the array, `head_` is `l.length` slots ahead of `tail_` around the
ring, and the slots from `tail_` on hold the items of `l`. -/
structure Rep {T : Type} (C : Nat) (q : SPSCQueue T) (l : List T) : Prop where
  len : q.buffer_.length = C
  tail_lt : q.tail_ < C
  size_lt : l.length < C
  head_eq : q.head_ = (q.tail_ + l.length) % C
  slots : ∀ j, j < l.length → q.buffer_[(q.tail_ + j) % C]? = l[j]?

end SPSC

/-!
# Bounded blocking queue (`examples/生产者消费者模式示例.cpp`)

Model of `BoundedBlockingQueue<T>`: the state is the content of `queue_` (front
first), `maxSize_` and `stopped_`. Every method body runs under `mutex_`, so a call is
one atomic step. A `condition_variable::wait` whose predicate is false is the outcome
`wouldBlock` with the state untouched; the call completes in a later state in which
the predicate holds.
-/

namespace ProducerConsumer

/-- The data members of `BoundedBlockingQueue<T>` (the mutex and the condition
variables carry no data). -/
structure BoundedBlockingQueue (T : Type) where
  queue_ : List T
  maxSize_ : Nat
  stopped_ : Bool
deriving DecidableEq

/-- What a call does in the current state: it would block in its `wait`, or it
returns a value. -/
inductive Outcome (α : Type) where
  | wouldBlock
  | returned (value : α)
deriving DecidableEq

/-- The constructor `BoundedBlockingQueue(size_t maxSize)`. -/
def BoundedBlockingQueue.new {T : Type} (maxSize : Nat) : BoundedBlockingQueue T :=
  { queue_ := [], maxSize_ := maxSize, stopped_ := false }

/-- The method `bool push(const T& item)`. -/
def BoundedBlockingQueue.push {T : Type} (s : BoundedBlockingQueue T) (item : T) :
    Outcome Bool × BoundedBlockingQueue T :=
  if (decide (s.queue_.length < s.maxSize_) || s.stopped_) = true then
    if s.stopped_ = true then
      (Outcome.returned false, s)
    else
      (Outcome.returned true, { s with queue_ := s.queue_ ++ [item] })
  else
    (Outcome.wouldBlock, s)

/-- The method `std::optional<T> pop()`. -/
def BoundedBlockingQueue.pop {T : Type} (s : BoundedBlockingQueue T) :
    Outcome (Option T) × BoundedBlockingQueue T :=
  if (!s.queue_.isEmpty || s.stopped_) = true then
    match s.queue_ with
    | [] => (Outcome.returned none, s)
    | item :: rest => (Outcome.returned (some item), { s with queue_ := rest })
  else
    (Outcome.wouldBlock, s)

/-- The method `std::optional<T> tryPopFor(timeout)`: when the predicate of
`wait_for` is false the call ends by timeout with `nullopt`. -/
def BoundedBlockingQueue.tryPopFor {T : Type} (s : BoundedBlockingQueue T) :
    Outcome (Option T) × BoundedBlockingQueue T :=
  if (!s.queue_.isEmpty || s.stopped_) = true then
    match s.queue_ with
    | [] => (Outcome.returned none, s)
    | item :: rest => (Outcome.returned (some item), { s with queue_ := rest })
  else
    (Outcome.returned none, s)

/-- The method `void stop()`. -/
def BoundedBlockingQueue.stop {T : Type} (s : BoundedBlockingQueue T) :
    BoundedBlockingQueue T :=
  { s with stopped_ := true }

/-- One atomic step on the queue, made by any thread. -/
inductive Op (T : Type) where
  | push (item : T)
  | pop
  | tryPopFor
  | stop
deriving DecidableEq

/-- The state after one step (a step that would block leaves the state as it is). -/
def applyOp {T : Type} (s : BoundedBlockingQueue T) : Op T → BoundedBlockingQueue T
  | Op.push item => (s.push item).2
  | Op.pop => s.pop.2
  | Op.tryPopFor => s.tryPopFor.2
  | Op.stop => s.stop

/-- The state after a sequence of steps. -/
def applyOps {T : Type} (s : BoundedBlockingQueue T) (ops : List (Op T)) :
    BoundedBlockingQueue T :=
  ops.foldl applyOp s

end ProducerConsumer

/-!
# State machine (`examples/状态机模式示例.cpp`)

The four `State` subclasses are stateless singletons, so a `State*` is either null or
one of four values. `handle` and `dispatch` return the context after the call; the
console output of `dispatch` is not modelled.
-/

namespace StateMachine

/-- The enumeration `enum class Event`. -/
inductive Event where
  | Start
  | Success
  | Fail
  | Reset
  | Stop
deriving DecidableEq

/-- The four singleton objects `Idle::instance()`, `Processing::instance()`,
`Error::instance()` and `Done::instance()` a `State*` can point to. -/
inductive State where
  | Idle
  | Processing
  | Error
  | Done
deriving DecidableEq

/-- The struct `Context`; `current` is `none` for the null pointer. -/
structure Context where
  current : Option State
deriving DecidableEq

/-- The method `void Context::set(State* s)`. -/
def Context.set (_ctx : Context) (s : State) : Context :=
  { current := some s }

/-- The method `Idle::handle`. -/
def Idle.handle (ctx : Context) (e : Event) : Context :=
  if e = Event.Start then ctx.set State.Processing else ctx

/-- The method `Processing::handle`. -/
def Processing.handle (ctx : Context) (e : Event) : Context :=
  if e = Event.Success then ctx.set State.Done
  else if e = Event.Fail then ctx.set State.Error
  else if e = Event.Reset ∨ e = Event.Stop then ctx.set State.Idle
  else ctx

/-- The method `Error::handle`. -/
def Error.handle (ctx : Context) (e : Event) : Context :=
  if e = Event.Reset then ctx.set State.Idle
  else if e = Event.Start then ctx.set State.Processing
  else ctx

/-- The method `Done::handle`. -/
def Done.handle (ctx : Context) (e : Event) : Context :=
  if e = Event.Reset then ctx.set State.Idle else ctx

/-- The virtual call `current->handle(ctx, e)`. -/
def State.handle : State → Context → Event → Context
  | State.Idle => Idle.handle
  | State.Processing => Processing.handle
  | State.Error => Error.handle
  | State.Done => Done.handle

/-- The method `void Context::dispatch(Event e)`. -/
def Context.dispatch (ctx : Context) (e : Event) : Context :=
  match ctx.current with
  | some s => s.handle ctx e
  | none => ctx

/-- The context at the end of `main`: `set(&Idle::instance())` on a fresh context,
then the six `dispatch` calls in order. -/
def mainContext : Context :=
  [Event.Start, Event.Success, Event.Reset, Event.Start, Event.Fail, Event.Reset].foldl
    Context.dispatch (Context.set { current := none } State.Idle)

end StateMachine

namespace SPSC

/-! ## Arithmetic of the index mask -/

theorem two_pow_lt_size (k : Nat) (hk : k < 64) : 2 ^ k < 2 ^ 64 :=
  Nat.pow_lt_pow_right (by norm_num) hk

theorem capMask_two_pow (k : Nat) (hk : k < 64) : capMask (2 ^ k) = 2 ^ k - 1 := by
  have h1 := two_pow_lt_size k hk
  have h2 : 0 < 2 ^ k := Nat.two_pow_pos k
  unfold capMask
  omega

/-- The cursor advance `(c + 1) & (Capacity - 1)` is `(c + 1) mod Capacity`. -/
theorem next_eq_mod (k : Nat) (hk : k < 64) (c : Nat) (hc : c < 2 ^ k) :
    ((c + 1) % 2 ^ 64) &&& capMask (2 ^ k) = (c + 1) % 2 ^ k := by
  have h1 := two_pow_lt_size k hk
  have h2 : (c + 1) % 2 ^ 64 = c + 1 := Nat.mod_eq_of_lt (by omega)
  rw [capMask_two_pow k hk, Nat.and_pow_two_sub_one_eq_mod, h2]

/-- Reduction modulo `C` of a number below `2 * C`, in a form linear arithmetic can use. -/
theorem mod_ring (C a : Nat) (h : a < 2 * C) :
    (a % C = a ∧ a < C) ∨ (a % C = a - C ∧ C ≤ a) := by
  by_cases hlt : a < C
  · exact Or.inl ⟨Nat.mod_eq_of_lt hlt, hlt⟩
  · right
    refine ⟨?_, by omega⟩
    rw [Nat.mod_eq_sub_mod (by omega), Nat.mod_eq_of_lt (by omega)]

/-! ## Consequences of the representation invariant -/

theorem Rep.head_lt {T : Type} {C : Nat} {q : SPSCQueue T} {l : List T} (h : Rep C q l) :
    q.head_ < C := by
  rw [h.head_eq]
  exact Nat.mod_lt _ (by have := h.tail_lt; omega)

theorem rep_empty {T : Type} (C i : Nat) (buf : List T) (hlen : buf.length = C) (hi : i < C) :
    Rep C ({ head_ := i, tail_ := i, buffer_ := buf } : SPSCQueue T) [] where
  len := hlen
  tail_lt := hi
  size_lt := by simpa using (by omega : 0 < C)
  head_eq := by simp [Nat.mod_eq_of_lt hi]
  slots := by intro j hj; simp at hj

theorem push_rep {T : Type} (k : Nat) (hk : k < 64) (q : SPSCQueue T) (l : List T) (x : T)
    (h : Rep (2 ^ k) q l) (hroom : l.length + 1 < 2 ^ k) :
    ∃ q1, push (2 ^ k) q x = some (true, q1) ∧ Rep (2 ^ k) q1 (l ++ [x]) := by
  have hh := h.head_lt
  have ht := h.tail_lt
  have he := h.head_eq
  have hl := h.len
  have m1 := mod_ring (2 ^ k) (q.tail_ + l.length) (by omega)
  have m2 := mod_ring (2 ^ k) (q.head_ + 1) (by omega)
  refine ⟨{ q with buffer_ := q.buffer_.set q.head_ x, head_ := (q.head_ + 1) % 2 ^ k }, ?_, ?_⟩
  · unfold push
    simp only [next_eq_mod k hk q.head_ hh]
    rw [if_neg (by omega), if_pos (by omega)]
  · refine ⟨by simpa using hl, ht, by simp; omega, ?_, ?_⟩
    · have m3 := mod_ring (2 ^ k) (q.tail_ + (l.length + 1)) (by omega)
      simp only [List.length_append, List.length_singleton]
      omega
    · intro j hj
      simp only [List.length_append, List.length_singleton] at hj
      have m4 := mod_ring (2 ^ k) (q.tail_ + j) (by omega)
      by_cases hjn : j < l.length
      · have hs := h.slots j hjn
        simp only
        rw [List.getElem?_set_ne (by omega), hs, List.getElem?_append_left hjn]
      · have hjn2 : j = l.length := by omega
        subst hjn2
        simp only
        rw [← he, List.getElem?_set_self (by omega)]
        simp

theorem push_full {T : Type} (k : Nat) (hk : k < 64) (q : SPSCQueue T) (l : List T) (x : T)
    (h : Rep (2 ^ k) q l) (hfull : l.length + 1 = 2 ^ k) :
    push (2 ^ k) q x = some (false, q) := by
  have hh := h.head_lt
  have ht := h.tail_lt
  have he := h.head_eq
  have m1 := mod_ring (2 ^ k) (q.tail_ + l.length) (by omega)
  have m2 := mod_ring (2 ^ k) (q.head_ + 1) (by omega)
  unfold push
  simp only [next_eq_mod k hk q.head_ hh]
  rw [if_pos (by omega)]

theorem pop_rep {T : Type} (k : Nat) (hk : k < 64) (q : SPSCQueue T) (y : T) (l : List T)
    (d : T) (h : Rep (2 ^ k) q (y :: l)) :
    ∃ q1, pop (2 ^ k) q d = some (true, y, q1) ∧ Rep (2 ^ k) q1 l := by
  have hh := h.head_lt
  have ht := h.tail_lt
  have he := h.head_eq
  have hl := h.len
  have hs := h.size_lt
  simp only [List.length_cons] at he hs
  have m1 := mod_ring (2 ^ k) (q.tail_ + (l.length + 1)) (by omega)
  have m2 := mod_ring (2 ^ k) (q.tail_ + 1) (by omega)
  refine ⟨{ q with tail_ := (q.tail_ + 1) % 2 ^ k }, ?_, ?_⟩
  · have h0 := h.slots 0 (by simp)
    simp only [Nat.add_zero, Nat.mod_eq_of_lt ht] at h0
    unfold pop
    simp only [next_eq_mod k hk q.tail_ ht]
    rw [if_neg (by omega)]
    simp only [h0, List.getElem?_cons_zero]
  · refine ⟨hl, Nat.mod_lt _ (by omega), by omega, ?_, ?_⟩
    · have m3 := mod_ring (2 ^ k) ((q.tail_ + 1) % 2 ^ k + l.length) (by omega)
      simp only
      omega
    · intro j hj
      have m3 := mod_ring (2 ^ k) ((q.tail_ + 1) % 2 ^ k + j) (by omega)
      have m4 := mod_ring (2 ^ k) (q.tail_ + (j + 1)) (by omega)
      have hs1 := h.slots (j + 1) (by simp; omega)
      simp only [List.getElem?_cons_succ] at hs1
      have e : ((q.tail_ + 1) % 2 ^ k + j) % 2 ^ k = (q.tail_ + (j + 1)) % 2 ^ k := by omega
      simp only
      rw [e, hs1]

theorem pop_empty {T : Type} (C : Nat) (q : SPSCQueue T) (d : T) (h : q.tail_ = q.head_) :
    pop C q d = some (false, d, q) := by
  unfold pop
  simp only [h, if_true]


/-! ## The queue refines the reference FIFO -/

theorem step_refines {T : Type} (k : Nat) (hk : k < 64) (q : SPSCQueue T) (l : List T)
    (c : Call T) (h : Rep (2 ^ k) q l) :
    ∃ q1, step (2 ^ k) q c = some ((refStep (2 ^ k) l c).1, q1) ∧
      Rep (2 ^ k) q1 (refStep (2 ^ k) l c).2 := by
  have hs := h.size_lt
  cases c with
  | push x =>
    by_cases hfull : l.length = 2 ^ k - 1
    · refine ⟨q, ?_, ?_⟩
      · simp only [step, refStep, refPush, if_pos hfull,
          push_full k hk q l x h (by omega)]
      · simpa only [refStep, refPush, if_pos hfull] using h
    · obtain ⟨q1, hq1, hrep⟩ := push_rep k hk q l x h (by omega)
      refine ⟨q1, ?_, ?_⟩
      · simp only [step, refStep, refPush, if_neg hfull, hq1]
      · simpa only [refStep, refPush, if_neg hfull] using hrep
  | pop d =>
    cases l with
    | nil =>
      have he := h.head_eq
      have ht := h.tail_lt
      simp only [List.length_nil, Nat.add_zero, Nat.mod_eq_of_lt ht] at he
      refine ⟨q, ?_, ?_⟩
      · simp only [step, refStep, refPop, pop_empty (2 ^ k) q d he.symm]
      · simpa only [refStep, refPop] using h
    | cons y r =>
      obtain ⟨q1, hq1, hrep⟩ := pop_rep k hk q y r d h
      refine ⟨q1, ?_, ?_⟩
      · simp only [step, refStep, refPop, hq1]
      · simpa only [refStep, refPop] using hrep

theorem run_refines {T : Type} (k : Nat) (hk : k < 64) (calls : List (Call T)) :
    ∀ (q : SPSCQueue T) (l : List T), Rep (2 ^ k) q l →
      ∃ q1, run (2 ^ k) q calls = some ((refRun (2 ^ k) l calls).1, q1) ∧
        Rep (2 ^ k) q1 (refRun (2 ^ k) l calls).2 := by
  induction calls with
  | nil => intro q l h; exact ⟨q, rfl, h⟩
  | cons c cs ih =>
    intro q l h
    obtain ⟨q1, hq1, hrep1⟩ := step_refines k hk q l c h
    obtain ⟨q2, hq2, hrep2⟩ := ih q1 _ hrep1
    exact ⟨q2, by simp only [run, hq1, hq2, refRun], by simpa only [refRun] using hrep2⟩

/-! ## Facts about the reference queue -/

theorem refRun_append {T : Type} (C : Nat) (a b : List (Call T)) :
    ∀ l : List T, refRun C l (a ++ b) =
      ((refRun C l a).1 ++ (refRun C (refRun C l a).2 b).1,
        (refRun C (refRun C l a).2 b).2) := by
  induction a with
  | nil => intro l; simp [refRun]
  | cons c cs ih => intro l; simp [refRun, ih]

theorem refRun_pushes {T : Type} (C : Nat) (xs : List T) :
    ∀ l : List T, l.length + xs.length + 1 ≤ C →
      refRun C l (xs.map Call.push) = (xs.map (fun _ => Result.push true), l ++ xs) := by
  induction xs with
  | nil => intro l _; simp [refRun]
  | cons x r ih =>
    intro l hl
    simp only [List.length_cons] at hl
    have hne : ¬ l.length = C - 1 := by omega
    have h1 := ih (l ++ [x]) (by simp; omega)
    simp only [List.map_cons, refRun, refStep, refPush, if_neg hne, h1]
    simp

theorem refRun_pops {T : Type} (C : Nat) (xs : List T) :
    ∀ ds : List T, ds.length = xs.length →
      refRun C xs (ds.map Call.pop) = (xs.map (fun x => Result.pop true x), []) := by
  induction xs with
  | nil =>
    intro ds hd
    have : ds = [] := List.length_eq_zero.mp (by simpa using hd)
    subst this
    simp [refRun]
  | cons x r ih =>
    intro ds hd
    cases ds with
    | nil => simp at hd
    | cons d dr =>
      have h1 := ih dr (by simpa using hd)
      simp only [List.map_cons, refRun, refStep, refPop, h1]

theorem refRun_length {T : Type} (C : Nat) (calls : List (Call T)) :
    ∀ l : List T, (refRun C l calls).2.length + popsOk (refRun C l calls).1 =
      l.length + pushesOk (refRun C l calls).1 := by
  induction calls with
  | nil => intro l; simp [refRun, popsOk, pushesOk]
  | cons c cs ih =>
    intro l
    cases c with
    | push x =>
      by_cases hfull : l.length = C - 1
      · have h1 := ih l
        simp only [refRun, refStep, refPush, if_pos hfull, popsOk, pushesOk]
        exact h1
      · have h1 := ih (l ++ [x])
        simp only [List.length_append, List.length_singleton] at h1
        simp only [refRun, refStep, refPush, if_neg hfull, popsOk, pushesOk]
        omega
    | pop d =>
      cases l with
      | nil =>
        have h1 := ih ([] : List T)
        simp only [refRun, refStep, refPop, popsOk, pushesOk]
        exact h1
      | cons y r =>
        have h1 := ih r
        simp only [refRun, refStep, refPop, popsOk, pushesOk, List.length_cons]
        omega


/-! ## The capacity check -/

theorem pow_of_and_pred_eq_zero (n : Nat) :
    0 < n → n &&& (n - 1) = 0 → ∃ k, n = 2 ^ k := by
  induction n using Nat.strong_induction_on with
  | _ n ih =>
    intro hpos hz
    by_cases h1 : n = 1
    · exact ⟨0, by simp [h1]⟩
    · have hdiv : (n / 2) &&& ((n - 1) / 2) = 0 := by
        rw [← Nat.and_div_two, hz]
      rcases Nat.mod_two_eq_zero_or_one n with hev | hodd
      · have e : (n - 1) / 2 = n / 2 - 1 := by omega
        rw [e] at hdiv
        obtain ⟨j, hj⟩ := ih (n / 2) (by omega) (by omega) hdiv
        exact ⟨j + 1, by rw [Nat.pow_succ, ← hj]; omega⟩
      · have e : (n - 1) / 2 = n / 2 := by omega
        rw [e, Nat.and_self] at hdiv
        omega

theorem capacityCheck_two_pow (k : Nat) (hk : k < 64) : capacityCheck (2 ^ k) = true := by
  have h2 : 0 < 2 ^ k := Nat.two_pow_pos k
  have e : 2 ^ k &&& (2 ^ k - 1) = 0 := by
    rw [Nat.and_pow_two_sub_one_eq_mod, Nat.mod_self]
  simp [capacityCheck, capMask_two_pow k hk, e]

theorem capacityCheck_pos_iff (Capacity : Nat) (hpos : 0 < Capacity)
    (hsz : Capacity < 2 ^ 64) :
    capacityCheck Capacity = true ↔ ∃ k, k < 64 ∧ Capacity = 2 ^ k := by
  constructor
  · intro h
    have hm : capMask Capacity = Capacity - 1 := by unfold capMask; omega
    have hz : Capacity &&& (Capacity - 1) = 0 := by
      simpa [capacityCheck, hm] using h
    obtain ⟨k, hk⟩ := pow_of_and_pred_eq_zero Capacity hpos hz
    refine ⟨k, ?_, hk⟩
    rw [hk] at hsz
    exact (Nat.pow_lt_pow_iff_right (by norm_num)).mp hsz
  · rintro ⟨k, hk, rfl⟩
    exact capacityCheck_two_pow k hk

/-! ## Claims -/

/-- C1 (FIFO order). For every power-of-two capacity `2 ^ k` (a `size_t`, so `k < 64`),
every empty queue state whose two cursors sit at the same index `i < Capacity`, and
every list `xs` of at most `Capacity - 1` items: pushing the items of `xs` in order
and then popping `xs.length` times (whatever the caller's output variable held
before each `pop`) makes every `push` return `true` and every `pop` return `true`
with exactly the pushed items, in the same order. -/
theorem C1_fifo_order {T : Type} (k : Nat) (hk : k < 64) (i : Nat) (buf : List T)
    (hlen : buf.length = 2 ^ k) (hi : i < 2 ^ k) (xs ds : List T)
    (hN : xs.length ≤ 2 ^ k - 1) (hds : ds.length = xs.length) :
    ∃ q1, run (2 ^ k) { head_ := i, tail_ := i, buffer_ := buf }
        (xs.map Call.push ++ ds.map Call.pop) =
      some (xs.map (fun _ => Result.push true) ++ xs.map (fun x => Result.pop true x), q1) := by
  have h2 : 0 < 2 ^ k := Nat.two_pow_pos k
  obtain ⟨q1, hq1, _⟩ := run_refines k hk (xs.map Call.push ++ ds.map Call.pop) _ []
    (rep_empty (2 ^ k) i buf hlen hi)
  refine ⟨q1, ?_⟩
  rw [hq1, refRun_append, refRun_pushes (2 ^ k) xs [] (by simp; omega)]
  simp only [List.nil_append, refRun_pops (2 ^ k) xs ds hds]

theorem C1_fifo_order_witness :
    (3 < 64 ∧ [0, 0, 0, 0, 0, 0, 0, 0].length = 2 ^ 3 ∧ 5 < 2 ^ 3 ∧
      [10, 11, 12, 13, 14, 15, 16].length ≤ 2 ^ 3 - 1 ∧
      [0, 0, 0, 0, 0, 0, 0].length = [10, 11, 12, 13, 14, 15, 16].length) ∧
    ∃ q1, run (2 ^ 3) { head_ := 5, tail_ := 5, buffer_ := [0, 0, 0, 0, 0, 0, 0, 0] }
        ([10, 11, 12, 13, 14, 15, 16].map Call.push ++
          [0, 0, 0, 0, 0, 0, 0].map Call.pop) =
      some ([10, 11, 12, 13, 14, 15, 16].map (fun _ => Result.push true) ++
        [10, 11, 12, 13, 14, 15, 16].map (fun x => Result.pop true x), q1) :=
  ⟨by decide, C1_fifo_order 3 (by decide) 5 [0, 0, 0, 0, 0, 0, 0, 0] (by decide) (by decide)
    [10, 11, 12, 13, 14, 15, 16] [0, 0, 0, 0, 0, 0, 0] (by decide) (by decide)⟩

/-- C2 (no reordering, duplication or loss). For every power-of-two capacity
`2 ^ k` (`k < 64`; in particular every power-of-two capacity `>= 2`) and every finite sequence of `push` / `pop` calls on a newly constructed
queue, every call returns and the sequence of results is the one the reference FIFO
list (push fails exactly at `Capacity - 1` items, pop fails exactly when empty)
gives for the same calls. -/
theorem C2_refines_reference_fifo {T : Type} (k : Nat) (hk : k < 64)
    (buf : List T) (hlen : buf.length = 2 ^ k) (calls : List (Call T)) :
    ∃ q1, run (2 ^ k) (SPSCQueue.new buf) calls =
      some ((refRun (2 ^ k) [] calls).1, q1) := by
  have h2 : 0 < 2 ^ k := Nat.two_pow_pos k
  obtain ⟨q1, hq1, _⟩ := run_refines k hk calls (SPSCQueue.new buf) []
    (rep_empty (2 ^ k) 0 buf hlen h2)
  exact ⟨q1, hq1⟩

theorem C2_refines_reference_fifo_witness :
    (2 < 64 ∧ [0, 0, 0, 0].length = 2 ^ 2) ∧
    ∃ q1, run (2 ^ 2) (SPSCQueue.new [0, 0, 0, 0])
        [Call.pop 9, Call.push 1, Call.push 2, Call.push 3, Call.push 4, Call.pop 9,
          Call.push 5, Call.pop 9, Call.pop 9, Call.pop 9, Call.pop 9] =
      some ((refRun (2 ^ 2) [] [Call.pop 9, Call.push 1, Call.push 2, Call.push 3,
        Call.push 4, Call.pop 9, Call.push 5, Call.pop 9, Call.pop 9, Call.pop 9,
        Call.pop 9]).1, q1) :=
  ⟨by decide, C2_refines_reference_fifo 2 (by decide) [0, 0, 0, 0] (by decide) _⟩

/-- C3 (capacity bound). For every power-of-two capacity `2 ^ k` (`k < 64`; in
particular every power-of-two capacity `>= 2`), on a newly
constructed queue with no `pop` performed, `Capacity - 1` consecutive `push` calls
all return `true` and the next `push` returns `false`. -/
theorem C3_capacity_bound {T : Type} (k : Nat) (hk : k < 64)
    (buf : List T) (hlen : buf.length = 2 ^ k) (xs : List T)
    (hxs : xs.length = 2 ^ k - 1) (y : T) :
    ∃ q1, run (2 ^ k) (SPSCQueue.new buf) (xs.map Call.push) =
        some (xs.map (fun _ => Result.push true), q1) ∧
      push (2 ^ k) q1 y = some (false, q1) := by
  have h2 : 0 < 2 ^ k := Nat.two_pow_pos k
  obtain ⟨q1, hq1, hrep⟩ := run_refines k hk (xs.map Call.push) (SPSCQueue.new buf) []
    (rep_empty (2 ^ k) 0 buf hlen h2)
  rw [refRun_pushes (2 ^ k) xs [] (by simp; omega)] at hq1 hrep
  simp only [List.nil_append] at hrep
  exact ⟨q1, hq1, push_full k hk q1 xs y hrep (by omega)⟩

theorem C3_capacity_bound_witness :
    (3 < 64 ∧ [0, 0, 0, 0, 0, 0, 0, 0].length = 2 ^ 3 ∧
      [1, 2, 3, 4, 5, 6, 7].length = 2 ^ 3 - 1) ∧
    ∃ q1, run (2 ^ 3) (SPSCQueue.new [0, 0, 0, 0, 0, 0, 0, 0])
        ([1, 2, 3, 4, 5, 6, 7].map Call.push) =
        some ([1, 2, 3, 4, 5, 6, 7].map (fun _ => Result.push true), q1) ∧
      push (2 ^ 3) q1 8 = some (false, q1) :=
  ⟨by decide, C3_capacity_bound 3 (by decide) [0, 0, 0, 0, 0, 0, 0, 0]
    (by decide) [1, 2, 3, 4, 5, 6, 7] (by decide) 8⟩

/-- C4 (one slot freed, one slot reusable). For every power-of-two capacity
`2 ^ k >= 2` and every full queue state (the array has `Capacity` slots, the write
cursor indexes it, and `push` returns `false`): a `pop` succeeds, after it the next
`push` returns `true` and the `push` after that returns `false`. -/
theorem C4_one_slot_reusable {T : Type} (k : Nat) (hk1 : 1 ≤ k) (hk : k < 64)
    (q : SPSCQueue T) (hlen : q.buffer_.length = 2 ^ k) (hhead : q.head_ < 2 ^ k)
    (x : T) (hfull : Option.map Prod.fst (push (2 ^ k) q x) = some false)
    (d y z : T) :
    ∃ v q1 q2, pop (2 ^ k) q d = some (true, v, q1) ∧
      push (2 ^ k) q1 y = some (true, q2) ∧
      push (2 ^ k) q2 z = some (false, q2) := by
  have hC : 2 ≤ 2 ^ k := by
    calc 2 = 2 ^ 1 := by norm_num
      _ ≤ 2 ^ k := Nat.pow_le_pow_right (by norm_num) hk1
  have m1 := mod_ring (2 ^ k) (q.head_ + 1) (by omega)
  have hnext : (q.head_ + 1) % 2 ^ k = q.tail_ := by
    by_contra hne
    unfold push at hfull
    simp only [next_eq_mod k hk q.head_ hhead] at hfull
    rw [if_neg hne] at hfull
    by_cases hb : q.head_ < q.buffer_.length
    · rw [if_pos hb] at hfull
      simp at hfull
    · rw [if_neg hb] at hfull
      simp at hfull
  have ht : q.tail_ < 2 ^ k := by omega
  have m2 := mod_ring (2 ^ k) (q.tail_ + 1) (by omega)
  obtain ⟨v, hv⟩ : ∃ v, q.buffer_[q.tail_]? = some v :=
    ⟨q.buffer_[q.tail_], List.getElem?_eq_getElem (by omega)⟩
  refine ⟨v, { q with tail_ := (q.tail_ + 1) % 2 ^ k },
    { head_ := q.tail_, tail_ := (q.tail_ + 1) % 2 ^ k,
      buffer_ := q.buffer_.set q.head_ y }, ?_, ?_, ?_⟩
  · unfold pop
    simp only [next_eq_mod k hk q.tail_ ht]
    rw [if_neg (by omega)]
    simp only [hv]
  · unfold push
    simp only [next_eq_mod k hk q.head_ hhead, hnext]
    rw [if_neg (by omega), if_pos (by omega)]
  · unfold push
    simp only [next_eq_mod k hk q.tail_ ht, if_true]

theorem C4_one_slot_reusable_witness :
    (1 ≤ 3 ∧ 3 < 64 ∧
      ({ head_ := 2, tail_ := 3, buffer_ := [18, 19, 20, 13, 14, 15, 16, 17] } :
        SPSCQueue Nat).buffer_.length = 2 ^ 3 ∧
      ({ head_ := 2, tail_ := 3, buffer_ := [18, 19, 20, 13, 14, 15, 16, 17] } :
        SPSCQueue Nat).head_ < 2 ^ 3 ∧
      Option.map Prod.fst (push (2 ^ 3)
        ({ head_ := 2, tail_ := 3, buffer_ := [18, 19, 20, 13, 14, 15, 16, 17] } :
          SPSCQueue Nat) 21) = some false) ∧
    ∃ v q1 q2, pop (2 ^ 3)
        ({ head_ := 2, tail_ := 3, buffer_ := [18, 19, 20, 13, 14, 15, 16, 17] } :
          SPSCQueue Nat) 0 = some (true, v, q1) ∧
      push (2 ^ 3) q1 21 = some (true, q2) ∧
      push (2 ^ 3) q2 22 = some (false, q2) :=
  ⟨by decide, C4_one_slot_reusable 3 (by decide) (by decide)
    { head_ := 2, tail_ := 3, buffer_ := [18, 19, 20, 13, 14, 15, 16, 17] }
    (by decide) (by decide) 21 (by decide) 0 21 22⟩

/-- C5 (power-of-two enforcement), the input on which the check fails to enforce it:
capacity `0` is not a power of two, yet the `static_assert` predicate
`(Capacity & (Capacity - 1)) == 0`, evaluated in `size_t` arithmetic, accepts it
(`0 - 1` wraps to `2 ^ 64 - 1` and `0 & (2 ^ 64 - 1) = 0`). The capacities 2, 4 and
1024 are accepted and 10 is rejected. -/
theorem C5_check_accepts_zero :
    capacityCheck 0 = true ∧ (¬ ∃ k, 0 = 2 ^ k) ∧
      capacityCheck 2 = true ∧ capacityCheck 4 = true ∧ capacityCheck 1024 = true ∧
      capacityCheck 10 = false := by
  refine ⟨by decide, ?_, by decide, by decide, by decide, by decide⟩
  rintro ⟨k, hk⟩
  have := Nat.two_pow_pos k
  omega

/-- C6, counterexample: capacity `1` is smaller than 2 and the capacity check
accepts it. -/
theorem C6_check_accepts_one :
    (1 < 2 ∧ capacityCheck 1 = true) ∧
      ¬ (∀ Capacity, Capacity < 2 → capacityCheck Capacity = false) := by
  refine ⟨by decide, ?_⟩
  intro h
  have h1 := h 1 (by decide)
  revert h1
  decide

/-- C6 (as amended). The capacity check enforces no minimum of 2: it accepts
capacity `1`, and every accepted capacity other than `0` (a `size_t`, so below
`2 ^ 64`) is a power of two `2 ^ k` with `k < 64`, hence `>= 1`. -/
theorem C6_accepted_capacity_is_power_of_two (Capacity : Nat) (hpos : 0 < Capacity)
    (hsz : Capacity < 2 ^ 64) (hacc : capacityCheck Capacity = true) :
    capacityCheck 1 = true ∧ ∃ k, k < 64 ∧ Capacity = 2 ^ k ∧ 1 ≤ Capacity :=
  ⟨by decide, by
    obtain ⟨k, hk, he⟩ := (capacityCheck_pos_iff Capacity hpos hsz).mp hacc
    exact ⟨k, hk, he, hpos⟩⟩

theorem C6_accepted_capacity_is_power_of_two_witness :
    (0 < 1024 ∧ 1024 < 2 ^ 64 ∧ capacityCheck 1024 = true) ∧
    (capacityCheck 1 = true ∧ ∃ k, k < 64 ∧ 1024 = 2 ^ k ∧ 1 ≤ 1024) :=
  ⟨by decide, C6_accepted_capacity_is_power_of_two 1024 (by decide) (by decide) (by decide)⟩

/-- C7 (full is a side-effect-free failure). For every capacity and every queue state
in which `(writeCursor + 1) & (Capacity - 1)` equals the read cursor, `push(item)`
returns `false` and the state after the call (write cursor, read cursor, every
storage slot) is the state before it, for every item. -/
theorem C7_push_full_no_effect {T : Type} (Capacity : Nat) (q : SPSCQueue T) (item : T)
    (hfull : ((q.head_ + 1) % 2 ^ 64) &&& capMask Capacity = q.tail_) :
    push Capacity q item = some (false, q) := by
  unfold push
  simp only [hfull, if_true]

theorem C7_push_full_no_effect_witness :
    (((({ head_ := 7, tail_ := 0, buffer_ := [1, 2, 3, 4, 5, 6, 7, 0] } :
        SPSCQueue Nat).head_ + 1) % 2 ^ 64) &&& capMask 8 =
      ({ head_ := 7, tail_ := 0, buffer_ := [1, 2, 3, 4, 5, 6, 7, 0] } :
        SPSCQueue Nat).tail_) ∧
    push 8 ({ head_ := 7, tail_ := 0, buffer_ := [1, 2, 3, 4, 5, 6, 7, 0] } :
        SPSCQueue Nat) 8 =
      some (false, { head_ := 7, tail_ := 0, buffer_ := [1, 2, 3, 4, 5, 6, 7, 0] }) :=
  ⟨by decide, C7_push_full_no_effect 8
    { head_ := 7, tail_ := 0, buffer_ := [1, 2, 3, 4, 5, 6, 7, 0] } 8 (by decide)⟩

/-- C8 (empty is a side-effect-free failure). For every capacity and every queue
state in which the read cursor equals the write cursor, `pop(item)` returns `false`,
the state after the call (read cursor, write cursor, every storage slot) is the state
before it, and the caller's output variable keeps its value. -/
theorem C8_pop_empty_no_effect {T : Type} (Capacity : Nat) (q : SPSCQueue T) (item : T)
    (hempty : q.tail_ = q.head_) :
    pop Capacity q item = some (false, item, q) := by
  unfold pop
  simp only [hempty, if_true]

theorem C8_pop_empty_no_effect_witness :
    (({ head_ := 3, tail_ := 3, buffer_ := [1, 2, 3, 4] } : SPSCQueue Nat).tail_ =
      ({ head_ := 3, tail_ := 3, buffer_ := [1, 2, 3, 4] } : SPSCQueue Nat).head_) ∧
    pop 4 ({ head_ := 3, tail_ := 3, buffer_ := [1, 2, 3, 4] } : SPSCQueue Nat) 99 =
      some (false, 99, { head_ := 3, tail_ := 3, buffer_ := [1, 2, 3, 4] }) :=
  ⟨by decide, C8_pop_empty_no_effect 4 { head_ := 3, tail_ := 3, buffer_ := [1, 2, 3, 4] }
    99 (by decide)⟩

/-- C9 (empty after drain). For every power-of-two capacity `2 ^ k` (`k < 64`; in
particular every power-of-two capacity `>= 2`) and every sequence of `push` / `pop`
calls on a newly constructed queue, every call returns, and if the number of
successful pops equals the number of successful pushes then in the resulting state
`empty()` returns `true` and a further `pop` returns `false`. -/
theorem C9_empty_after_drain {T : Type} (k : Nat) (hk : k < 64) (buf : List T)
    (hlen : buf.length = 2 ^ k) (calls : List (Call T)) :
    ∃ res q1, run (2 ^ k) (SPSCQueue.new buf) calls = some (res, q1) ∧
      (popsOk res = pushesOk res →
        empty q1 = true ∧ ∀ d, pop (2 ^ k) q1 d = some (false, d, q1)) := by
  have h2 : 0 < 2 ^ k := Nat.two_pow_pos k
  obtain ⟨q1, hq1, hrep⟩ := run_refines k hk calls (SPSCQueue.new buf) []
    (rep_empty (2 ^ k) 0 buf hlen h2)
  refine ⟨_, q1, hq1, ?_⟩
  intro hcnt
  have hl := refRun_length (2 ^ k) calls ([] : List T)
  rw [hcnt] at hl
  have hnil : (refRun (2 ^ k) ([] : List T) calls).2 = [] :=
    List.length_eq_zero.mp (by simpa using hl)
  rw [hnil] at hrep
  have he := hrep.head_eq
  have ht := hrep.tail_lt
  simp only [List.length_nil, Nat.add_zero, Nat.mod_eq_of_lt ht] at he
  refine ⟨by simp [empty, he], fun d => pop_empty (2 ^ k) q1 d he.symm⟩

theorem C9_empty_after_drain_witness :
    (2 < 64 ∧ [0, 0, 0, 0].length = 2 ^ 2) ∧
    ∃ res q1, run (2 ^ 2) (SPSCQueue.new [0, 0, 0, 0])
        [Call.push 1, Call.push 2, Call.pop 0, Call.push 3, Call.pop 0, Call.pop 0] =
        some (res, q1) ∧
      (popsOk res = pushesOk res →
        empty q1 = true ∧ ∀ d, pop (2 ^ 2) q1 d = some (false, d, q1)) :=
  ⟨by decide, C9_empty_after_drain 2 (by decide) [0, 0, 0, 0] (by decide) _⟩

/-- C10 (size bound). For every power-of-two capacity `2 ^ k` (`k < 64`; in
particular every power-of-two capacity `>= 2`) and every pair of cursor values (any queue state at all), `size() = (head - tail) & (Capacity - 1)`
computed in `size_t` arithmetic satisfies `0 <= size() <= Capacity - 1`. -/
theorem C10_size_bound {T : Type} (k : Nat) (hk : k < 64)
    (q : SPSCQueue T) :
    0 ≤ size (2 ^ k) q ∧ size (2 ^ k) q ≤ 2 ^ k - 1 := by
  refine ⟨Nat.zero_le _, ?_⟩
  unfold size
  rw [capMask_two_pow k hk]
  exact Nat.and_le_right

theorem C10_size_bound_witness :
    3 < 64 ∧
    (0 ≤ size (2 ^ 3) ({ head_ := 1, tail_ := 6, buffer_ := [0, 0, 0, 0, 0, 0, 0, 0] } :
        SPSCQueue Nat) ∧
      size (2 ^ 3) ({ head_ := 1, tail_ := 6, buffer_ := [0, 0, 0, 0, 0, 0, 0, 0] } :
        SPSCQueue Nat) ≤ 2 ^ 3 - 1) :=
  ⟨by decide, C10_size_bound 3 (by decide)
    { head_ := 1, tail_ := 6, buffer_ := [0, 0, 0, 0, 0, 0, 0, 0] }⟩

/-! ## Occupancy of a represented queue -/

theorem size_of_rep {T : Type} (k : Nat) (hk : k < 64) (q : SPSCQueue T) (l : List T)
    (h : Rep (2 ^ k) q l) : size (2 ^ k) q = l.length := by
  have hh := h.head_lt
  have ht := h.tail_lt
  have he := h.head_eq
  have hs := h.size_lt
  have h1 := two_pow_lt_size k hk
  have m1 := mod_ring (2 ^ k) (q.tail_ + l.length) (by omega)
  have hM : 2 ^ 64 = 2 ^ k * 2 ^ (64 - k) := by
    rw [← Nat.pow_add]
    congr 1
    omega
  have hD : 0 < 2 ^ (64 - k) := Nat.two_pow_pos _
  unfold size
  rw [capMask_two_pow k hk, Nat.and_pow_two_sub_one_eq_mod]
  rcases m1 with ⟨e1, _⟩ | ⟨e1, hge⟩
  · have e2 : (q.head_ + 2 ^ 64 - q.tail_) % 2 ^ 64 = l.length := by
      have : q.head_ + 2 ^ 64 - q.tail_ = l.length + 2 ^ 64 := by omega
      rw [this, Nat.add_mod_right]
      exact Nat.mod_eq_of_lt (by omega)
    rw [e2]
    exact Nat.mod_eq_of_lt hs
  · have e2 : (q.head_ + 2 ^ 64 - q.tail_) % 2 ^ 64 = q.head_ + 2 ^ 64 - q.tail_ :=
      Nat.mod_eq_of_lt (by omega)
    have e3 : q.head_ + 2 ^ 64 - q.tail_ = l.length + 2 ^ k * (2 ^ (64 - k) - 1) := by
      rw [Nat.mul_sub_one]
      omega
    rw [e2, e3, Nat.add_mul_mod_self_left]
    exact Nat.mod_eq_of_lt hs

theorem cursors_eq_iff_of_rep {T : Type} (C : Nat) (q : SPSCQueue T) (l : List T)
    (h : Rep C q l) : q.head_ = q.tail_ ↔ l.length = 0 := by
  have ht := h.tail_lt
  have he := h.head_eq
  have hs := h.size_lt
  have m1 := mod_ring C (q.tail_ + l.length) (by omega)
  omega

/-- Every call sequence on a newly constructed queue returns, and the state it ends
in represents the content of the reference queue. -/
theorem run_new_rep {T : Type} (k : Nat) (hk : k < 64) (buf : List T)
    (hlen : buf.length = 2 ^ k) (calls : List (Call T)) :
    ∃ q1, run (2 ^ k) (SPSCQueue.new buf) calls = some ((refRun (2 ^ k) [] calls).1, q1) ∧
      Rep (2 ^ k) q1 (refRun (2 ^ k) [] calls).2 :=
  run_refines k hk calls (SPSCQueue.new buf) [] (rep_empty (2 ^ k) 0 buf hlen (Nat.two_pow_pos k))

/-- For every accepted capacity other than `0`, every call sequence on a newly
constructed queue returns (no slot access leaves the array) and ends with both
cursors below `Capacity`. -/
theorem in_bounds_of_accepted_pos {T : Type} (Capacity : Nat) (hpos : 0 < Capacity)
    (hsz : Capacity < 2 ^ 64) (hacc : capacityCheck Capacity = true) (buf : List T)
    (hlen : buf.length = Capacity) (calls : List (Call T)) :
    ∃ res q1, run Capacity (SPSCQueue.new buf) calls = some (res, q1) ∧
      q1.head_ < Capacity ∧ q1.tail_ < Capacity := by
  obtain ⟨k, hk, rfl⟩ := (capacityCheck_pos_iff Capacity hpos hsz).mp hacc
  obtain ⟨q1, hq1, hrep⟩ := run_new_rep k hk buf hlen calls
  exact ⟨_, q1, hq1, hrep.head_lt, hrep.tail_lt⟩

/-- C11 (size is the logical occupancy). For every power-of-two capacity `2 ^ k`
(`k < 64`; in particular every power-of-two capacity `>= 2`) and every sequence of
`push` / `pop` calls on a newly constructed queue, every call returns and `size()` in
the resulting state is the number of `push` calls that returned `true` minus the
number of `pop` calls that returned `true`, also when the write cursor has wrapped
below the read cursor. -/
theorem C11_size_is_occupancy {T : Type} (k : Nat) (hk : k < 64) (buf : List T)
    (hlen : buf.length = 2 ^ k) (calls : List (Call T)) :
    ∃ res q1, run (2 ^ k) (SPSCQueue.new buf) calls = some (res, q1) ∧
      popsOk res ≤ pushesOk res ∧ size (2 ^ k) q1 = pushesOk res - popsOk res := by
  obtain ⟨q1, hq1, hrep⟩ := run_new_rep k hk buf hlen calls
  have hl := refRun_length (2 ^ k) calls ([] : List T)
  have hsz := size_of_rep k hk q1 _ hrep
  simp only [List.length_nil, Nat.zero_add] at hl
  exact ⟨_, q1, hq1, by omega, by omega⟩

theorem C11_size_is_occupancy_witness :
    (2 < 64 ∧ [0, 0, 0, 0].length = 2 ^ 2) ∧
    ∃ res q1, run (2 ^ 2) (SPSCQueue.new [0, 0, 0, 0])
        [Call.push 1, Call.push 2, Call.push 3, Call.pop 0, Call.pop 0, Call.pop 0,
          Call.push 4] = some (res, q1) ∧
      popsOk res ≤ pushesOk res ∧ size (2 ^ 2) q1 = pushesOk res - popsOk res :=
  ⟨by decide, C11_size_is_occupancy 2 (by decide) [0, 0, 0, 0] (by decide) _⟩

/-- C12, counterexample: with capacity 4, after three pushes, three pops and one more
push the stored cursors are `head_ = 0` and `tail_ = 3`; their `size_t` difference is
`2 ^ 64 - 3`, which is not `<= Capacity - 1`. -/
theorem C12_cursor_difference_exceeds_bound :
    ∃ res q1, run (2 ^ 2) (SPSCQueue.new [0, 0, 0, 0])
        [Call.push 1, Call.push 2, Call.push 3, Call.pop 0, Call.pop 0, Call.pop 0,
          Call.push 4] = some (res, q1) ∧
      q1.head_ = 0 ∧ q1.tail_ = 3 ∧ cursorDiff q1 = 2 ^ 64 - 3 ∧
      ¬ (cursorDiff q1 ≤ 2 ^ 2 - 1) :=
  ⟨_, _, rfl, rfl, rfl, by decide, by decide⟩

/-- C12 (as amended). For every power-of-two capacity `2 ^ k` (`k < 64`), in every
state reachable from a newly constructed queue by any sequence of `push` / `pop`
calls, both stored cursors are below `Capacity`, the `size_t` difference
`writeCursor - readCursor` reduced with `& (Capacity - 1)` is at most `Capacity - 1`,
and the unreduced difference is at most `Capacity - 1` exactly when the write cursor
has not wrapped below the read cursor. -/
theorem C12_masked_cursor_difference_bound {T : Type} (k : Nat) (hk : k < 64)
    (buf : List T) (hlen : buf.length = 2 ^ k) (calls : List (Call T)) :
    ∃ res q1, run (2 ^ k) (SPSCQueue.new buf) calls = some (res, q1) ∧
      q1.head_ < 2 ^ k ∧ q1.tail_ < 2 ^ k ∧
      cursorDiff q1 &&& capMask (2 ^ k) ≤ 2 ^ k - 1 ∧
      (cursorDiff q1 ≤ 2 ^ k - 1 ↔ q1.tail_ ≤ q1.head_) := by
  obtain ⟨q1, hq1, hrep⟩ := run_new_rep k hk buf hlen calls
  have hh := hrep.head_lt
  have ht := hrep.tail_lt
  have h1 : 2 ^ k ≤ 2 ^ 63 := Nat.pow_le_pow_right (by norm_num) (by omega)
  refine ⟨_, q1, hq1, hh, ht, ?_, ?_⟩
  · rw [capMask_two_pow k hk]
    exact Nat.and_le_right
  · unfold cursorDiff
    constructor
    · intro hle
      by_contra hlt
      have e : (q1.head_ + 2 ^ 64 - q1.tail_) % 2 ^ 64 = q1.head_ + 2 ^ 64 - q1.tail_ :=
        Nat.mod_eq_of_lt (by omega)
      omega
    · intro hle
      have e : q1.head_ + 2 ^ 64 - q1.tail_ = (q1.head_ - q1.tail_) + 2 ^ 64 := by omega
      rw [e, Nat.add_mod_right, Nat.mod_eq_of_lt (by omega)]
      omega

theorem C12_masked_cursor_difference_bound_witness :
    (2 < 64 ∧ [0, 0, 0, 0].length = 2 ^ 2) ∧
    ∃ res q1, run (2 ^ 2) (SPSCQueue.new [0, 0, 0, 0])
        [Call.push 1, Call.push 2, Call.push 3, Call.pop 0, Call.pop 0, Call.pop 0,
          Call.push 4] = some (res, q1) ∧
      q1.head_ < 2 ^ 2 ∧ q1.tail_ < 2 ^ 2 ∧
      cursorDiff q1 &&& capMask (2 ^ 2) ≤ 2 ^ 2 - 1 ∧
      (cursorDiff q1 ≤ 2 ^ 2 - 1 ↔ q1.tail_ ≤ q1.head_) :=
  ⟨by decide, C12_masked_cursor_difference_bound 2 (by decide) [0, 0, 0, 0] (by decide) _⟩

/-- C13 (single writer per cursor). For every capacity, state and item: a `push` that
returns leaves the read cursor as it was and changes no storage slot other than
`storage[writeCursor]` (the array keeps its length); a `pop` that returns leaves the
write cursor and the whole storage as they were. So among the two operations only
`push` can change the write cursor and only `pop` the read cursor. Both calls return
whenever the cursor they index with lies inside the array. -/
theorem C13_single_writer_frame {T : Type} (Capacity : Nat) (q : SPSCQueue T) (item : T) :
    (∀ ok q1, push Capacity q item = some (ok, q1) →
      q1.tail_ = q.tail_ ∧ q1.buffer_.length = q.buffer_.length ∧
        ∀ j, j ≠ q.head_ → q1.buffer_[j]? = q.buffer_[j]?) ∧
    (∀ ok v q1, pop Capacity q item = some (ok, v, q1) →
      q1.head_ = q.head_ ∧ q1.buffer_ = q.buffer_) ∧
    (q.head_ < q.buffer_.length → ∃ ok q1, push Capacity q item = some (ok, q1)) ∧
    (q.tail_ < q.buffer_.length → ∃ ok v q1, pop Capacity q item = some (ok, v, q1)) := by
  refine ⟨?_, ?_, ?_, ?_⟩
  · intro ok q1 h
    unfold push at h
    simp only at h
    split_ifs at h with h1 h2
    · simp only [Option.some.injEq, Prod.mk.injEq] at h
      obtain ⟨_, rfl⟩ := h
      exact ⟨rfl, rfl, fun _ _ => rfl⟩
    · simp only [Option.some.injEq, Prod.mk.injEq] at h
      obtain ⟨_, rfl⟩ := h
      refine ⟨rfl, by simp, ?_⟩
      intro j hj
      exact List.getElem?_set_ne (Ne.symm hj)
  · intro ok v q1 h
    unfold pop at h
    simp only at h
    split_ifs at h with h1
    · simp only [Option.some.injEq, Prod.mk.injEq] at h
      obtain ⟨_, _, rfl⟩ := h
      exact ⟨rfl, rfl⟩
    · cases hb : q.buffer_[q.tail_]? with
      | none => simp [hb] at h
      | some w =>
        simp only [hb, Option.some.injEq, Prod.mk.injEq] at h
        obtain ⟨_, _, rfl⟩ := h
        exact ⟨rfl, rfl⟩
  · intro hb
    unfold push
    simp only
    split_ifs
    · exact ⟨_, _, rfl⟩
    · exact ⟨_, _, rfl⟩
  · intro hb
    unfold pop
    simp only
    split_ifs
    · exact ⟨_, _, _, rfl⟩
    · rw [List.getElem?_eq_getElem hb]
      exact ⟨_, _, _, rfl⟩

theorem C13_single_writer_frame_witness :
    (push 4 ({ head_ := 3, tail_ := 1, buffer_ := [5, 6, 7, 8] } : SPSCQueue Nat) 9 =
        some (true, { head_ := 0, tail_ := 1, buffer_ := [5, 6, 7, 9] }) ∧
      pop 4 ({ head_ := 3, tail_ := 1, buffer_ := [5, 6, 7, 8] } : SPSCQueue Nat) 9 =
        some (true, 6, { head_ := 3, tail_ := 2, buffer_ := [5, 6, 7, 8] })) ∧
    ((({ head_ := 0, tail_ := 1, buffer_ := [5, 6, 7, 9] } : SPSCQueue Nat).tail_ =
        ({ head_ := 3, tail_ := 1, buffer_ := [5, 6, 7, 8] } : SPSCQueue Nat).tail_) ∧
      (({ head_ := 3, tail_ := 2, buffer_ := [5, 6, 7, 8] } : SPSCQueue Nat).head_ =
        ({ head_ := 3, tail_ := 1, buffer_ := [5, 6, 7, 8] } : SPSCQueue Nat).head_)) :=
  ⟨⟨by decide, by decide⟩,
    ((C13_single_writer_frame 4 { head_ := 3, tail_ := 1, buffer_ := [5, 6, 7, 8] } 9).1
      true { head_ := 0, tail_ := 1, buffer_ := [5, 6, 7, 9] } (by decide)).1,
    ((C13_single_writer_frame 4 { head_ := 3, tail_ := 1, buffer_ := [5, 6, 7, 8] } 9).2.1
      true 6 { head_ := 3, tail_ := 2, buffer_ := [5, 6, 7, 8] } (by decide)).1⟩

/-- C17 (full exactly at `Capacity - 1` live elements). For every power-of-two
capacity `2 ^ k` (`k < 64`; in particular every power-of-two capacity `>= 2`), in
every state reachable from a newly constructed queue, `push` returns `false` if and
only if `size() = Capacity - 1`, and returns `true` if and only if
`size() < Capacity - 1`; `size()` never exceeds `Capacity - 1`. -/
theorem C17_full_iff_size {T : Type} (k : Nat) (hk : k < 64) (buf : List T)
    (hlen : buf.length = 2 ^ k) (calls : List (Call T)) (x : T) :
    ∃ res q1, run (2 ^ k) (SPSCQueue.new buf) calls = some (res, q1) ∧
      (Option.map Prod.fst (push (2 ^ k) q1 x) = some false ↔
        size (2 ^ k) q1 = 2 ^ k - 1) ∧
      (Option.map Prod.fst (push (2 ^ k) q1 x) = some true ↔
        size (2 ^ k) q1 < 2 ^ k - 1) ∧
      size (2 ^ k) q1 ≤ 2 ^ k - 1 := by
  obtain ⟨q1, hq1, hrep⟩ := run_new_rep k hk buf hlen calls
  have hsz := size_of_rep k hk q1 _ hrep
  have hs := hrep.size_lt
  refine ⟨_, q1, hq1, ?_⟩
  by_cases hfull : (refRun (2 ^ k) ([] : List T) calls).2.length + 1 = 2 ^ k
  · have hp := push_full k hk q1 _ x hrep hfull
    rw [hp, hsz]
    simp only [Option.map_some', Option.some.injEq, Bool.false_eq_true, false_iff,
      true_iff]
    omega
  · obtain ⟨q2, hp, _⟩ := push_rep k hk q1 _ x hrep (by omega)
    rw [hp, hsz]
    simp only [Option.map_some', Option.some.injEq, Bool.true_eq_false, false_iff,
      true_iff]
    omega

theorem C17_full_iff_size_witness :
    (3 < 64 ∧ [0, 0, 0, 0, 0, 0, 0, 0].length = 2 ^ 3) ∧
    ∃ res q1, run (2 ^ 3) (SPSCQueue.new [0, 0, 0, 0, 0, 0, 0, 0])
        [Call.push 1, Call.push 2, Call.pop 0, Call.push 3, Call.push 4, Call.push 5,
          Call.push 6, Call.push 7, Call.push 8] = some (res, q1) ∧
      (Option.map Prod.fst (push (2 ^ 3) q1 9) = some false ↔
        size (2 ^ 3) q1 = 2 ^ 3 - 1) ∧
      (Option.map Prod.fst (push (2 ^ 3) q1 9) = some true ↔
        size (2 ^ 3) q1 < 2 ^ 3 - 1) ∧
      size (2 ^ 3) q1 ≤ 2 ^ 3 - 1 :=
  ⟨by decide, C17_full_iff_size 3 (by decide) [0, 0, 0, 0, 0, 0, 0, 0] (by decide) _ 9⟩

/-- C18, counterexample: with capacity 4, after three pushes and one pop the write
cursor is 3; the next `push` returns `true` and stores write cursor 0, which is
smaller than before. -/
theorem C18_write_cursor_wraps :
    ∃ res q0 q1, run (2 ^ 2) (SPSCQueue.new [0, 0, 0, 0])
        [Call.push 1, Call.push 2, Call.push 3, Call.pop 0] = some (res, q0) ∧
      push (2 ^ 2) q0 4 = some (true, q1) ∧
      q0.head_ = 3 ∧ q1.head_ = 0 ∧ ¬ (q0.head_ ≤ q1.head_) :=
  ⟨_, _, _, rfl, rfl, rfl, rfl, by decide⟩

/-- C18 (as amended). For every power-of-two capacity `2 ^ k` (`k < 64`) and every
state whose cursors are below `Capacity`: a `push` that returns `false` leaves the
stored write cursor as it was, and a `push` that returns `true` stores
`(writeCursor + 1) mod Capacity`, which is `writeCursor + 1` except that from
`Capacity - 1` it wraps to `0`; likewise the read cursor across `pop`. -/
theorem C18_cursor_advances_modulo_capacity {T : Type} (k : Nat) (hk : k < 64)
    (q : SPSCQueue T) (hhead : q.head_ < 2 ^ k) (htail : q.tail_ < 2 ^ k) (item : T) :
    (∀ ok q1, push (2 ^ k) q item = some (ok, q1) →
      (ok = false → q1.head_ = q.head_) ∧
      (ok = true → q1.head_ = (q.head_ + 1) % 2 ^ k ∧
        (q.head_ + 1 < 2 ^ k → q1.head_ = q.head_ + 1) ∧
        (q.head_ + 1 = 2 ^ k → q1.head_ = 0))) ∧
    (∀ ok v q1, pop (2 ^ k) q item = some (ok, v, q1) →
      (ok = false → q1.tail_ = q.tail_) ∧
      (ok = true → q1.tail_ = (q.tail_ + 1) % 2 ^ k ∧
        (q.tail_ + 1 < 2 ^ k → q1.tail_ = q.tail_ + 1) ∧
        (q.tail_ + 1 = 2 ^ k → q1.tail_ = 0))) := by
  have m1 := mod_ring (2 ^ k) (q.head_ + 1) (by omega)
  have m2 := mod_ring (2 ^ k) (q.tail_ + 1) (by omega)
  constructor
  · intro ok q1 h
    unfold push at h
    simp only [next_eq_mod k hk q.head_ hhead] at h
    split_ifs at h with h1 h2
    · simp only [Option.some.injEq, Prod.mk.injEq] at h
      obtain ⟨rfl, rfl⟩ := h
      exact ⟨fun _ => rfl, fun hc => by simp at hc⟩
    · simp only [Option.some.injEq, Prod.mk.injEq] at h
      obtain ⟨rfl, rfl⟩ := h
      refine ⟨fun hc => by simp at hc, fun _ => ⟨rfl, ?_, ?_⟩⟩
      · intro hlt
        show (q.head_ + 1) % 2 ^ k = q.head_ + 1
        omega
      · intro heq
        show (q.head_ + 1) % 2 ^ k = 0
        omega
  · intro ok v q1 h
    unfold pop at h
    simp only [next_eq_mod k hk q.tail_ htail] at h
    split_ifs at h with h1
    · simp only [Option.some.injEq, Prod.mk.injEq] at h
      obtain ⟨rfl, _, rfl⟩ := h
      exact ⟨fun _ => rfl, fun hc => by simp at hc⟩
    · cases hb : q.buffer_[q.tail_]? with
      | none => simp [hb] at h
      | some w =>
        simp only [hb, Option.some.injEq, Prod.mk.injEq] at h
        obtain ⟨rfl, _, rfl⟩ := h
        refine ⟨fun hc => by simp at hc, fun _ => ⟨rfl, ?_, ?_⟩⟩
        · intro hlt
          show (q.tail_ + 1) % 2 ^ k = q.tail_ + 1
          omega
        · intro heq
          show (q.tail_ + 1) % 2 ^ k = 0
          omega

theorem C18_cursor_advances_modulo_capacity_witness :
    (2 < 64 ∧
      ({ head_ := 3, tail_ := 1, buffer_ := [5, 6, 7, 8] } : SPSCQueue Nat).head_ < 2 ^ 2 ∧
      ({ head_ := 3, tail_ := 1, buffer_ := [5, 6, 7, 8] } : SPSCQueue Nat).tail_ < 2 ^ 2 ∧
      push (2 ^ 2) ({ head_ := 3, tail_ := 1, buffer_ := [5, 6, 7, 8] } : SPSCQueue Nat) 9 =
        some (true, { head_ := 0, tail_ := 1, buffer_ := [5, 6, 7, 9] })) ∧
    (({ head_ := 0, tail_ := 1, buffer_ := [5, 6, 7, 9] } : SPSCQueue Nat).head_ =
      (({ head_ := 3, tail_ := 1, buffer_ := [5, 6, 7, 8] } : SPSCQueue Nat).head_ + 1)
        % 2 ^ 2) :=
  ⟨by decide,
    (((C18_cursor_advances_modulo_capacity 2 (by decide)
      { head_ := 3, tail_ := 1, buffer_ := [5, 6, 7, 8] } (by decide) (by decide) 9).1
      true { head_ := 0, tail_ := 1, buffer_ := [5, 6, 7, 9] } (by decide)).2 rfl).1⟩

/-- C19 (slot accesses in bounds for every accepted capacity), the input on which it
fails: capacity `0` passes the `static_assert` predicate, the newly constructed queue
has both cursors at `0`, which is not below `Capacity`, and its first `push` does not
see the queue as full (`(0 + 1) & (0 - 1) = 1`) and indexes `buffer_[0]` in an array
of no slots: the out-of-range branch is reached. -/
theorem C19_zero_capacity_out_of_bounds :
    capacityCheck 0 = true ∧
      ¬ ((SPSCQueue.new ([] : List Nat)).head_ < 0) ∧
      ((0 + 1) % 2 ^ 64) &&& capMask 0 = 1 ∧
      push 0 (SPSCQueue.new ([] : List Nat)) 7 = none ∧
      run 0 (SPSCQueue.new ([] : List Nat)) [Call.push 7] = none := by
  refine ⟨by decide, by decide, by decide, by decide, by decide⟩

/-- C20 (`empty()` agrees with `size()`). For every power-of-two capacity `2 ^ k`
(`k < 64`; in particular every power-of-two capacity `>= 2`), in every state
reachable from a newly constructed queue, `empty()` returns `true` if and only if
`size()` returns `0`. -/
theorem C20_empty_iff_size_zero {T : Type} (k : Nat) (hk : k < 64) (buf : List T)
    (hlen : buf.length = 2 ^ k) (calls : List (Call T)) :
    ∃ res q1, run (2 ^ k) (SPSCQueue.new buf) calls = some (res, q1) ∧
      (empty q1 = true ↔ size (2 ^ k) q1 = 0) := by
  obtain ⟨q1, hq1, hrep⟩ := run_new_rep k hk buf hlen calls
  have hsz := size_of_rep k hk q1 _ hrep
  have hiff := cursors_eq_iff_of_rep (2 ^ k) q1 _ hrep
  refine ⟨_, q1, hq1, ?_⟩
  rw [hsz, ← hiff]
  simp [empty]

theorem C20_empty_iff_size_zero_witness :
    (2 < 64 ∧ [0, 0, 0, 0].length = 2 ^ 2) ∧
    ∃ res q1, run (2 ^ 2) (SPSCQueue.new [0, 0, 0, 0])
        [Call.push 1, Call.push 2, Call.pop 0, Call.pop 0] = some (res, q1) ∧
      (empty q1 = true ↔ size (2 ^ 2) q1 = 0) :=
  ⟨by decide, C20_empty_iff_size_zero 2 (by decide) [0, 0, 0, 0] (by decide) _⟩

end SPSC

namespace ProducerConsumer

/-! ## The bounded blocking queue -/

theorem applyOp_bounded {T : Type} (s : BoundedBlockingQueue T) (op : Op T)
    (h : s.queue_.length ≤ s.maxSize_) :
    (applyOp s op).queue_.length ≤ (applyOp s op).maxSize_ ∧
      (applyOp s op).maxSize_ = s.maxSize_ := by
  cases op with
  | push item =>
    simp only [applyOp, BoundedBlockingQueue.push]
    split_ifs with h1 h2
    · exact ⟨h, rfl⟩
    · simp only [Bool.or_eq_true, decide_eq_true_eq] at h1
      have hlt : s.queue_.length < s.maxSize_ := by
        rcases h1 with h1 | h1
        · exact h1
        · exact absurd h1 h2
      refine ⟨?_, rfl⟩
      simp only [List.length_append, List.length_singleton]
      omega
    · exact ⟨h, rfl⟩
  | pop =>
    simp only [applyOp, BoundedBlockingQueue.pop]
    split_ifs with h1
    · cases hq : s.queue_ with
      | nil => simp [hq]
      | cons y r =>
        rw [hq] at h
        simp only [List.length_cons] at h
        exact ⟨by simp only; omega, rfl⟩
    · exact ⟨h, rfl⟩
  | tryPopFor =>
    simp only [applyOp, BoundedBlockingQueue.tryPopFor]
    split_ifs with h1
    · cases hq : s.queue_ with
      | nil => simp [hq]
      | cons y r =>
        rw [hq] at h
        simp only [List.length_cons] at h
        exact ⟨by simp only; omega, rfl⟩
    · exact ⟨h, rfl⟩
  | stop => exact ⟨h, rfl⟩

theorem applyOps_bounded {T : Type} (ops : List (Op T)) :
    ∀ s : BoundedBlockingQueue T, s.queue_.length ≤ s.maxSize_ →
      (applyOps s ops).queue_.length ≤ (applyOps s ops).maxSize_ ∧
        (applyOps s ops).maxSize_ = s.maxSize_ := by
  induction ops with
  | nil => intro s h; exact ⟨h, rfl⟩
  | cons op rest ih =>
    intro s h
    obtain ⟨h1, h2⟩ := applyOp_bounded s op h
    obtain ⟨h3, h4⟩ := ih (applyOp s op) h1
    exact ⟨by simpa only [applyOps, List.foldl_cons] using h3,
      by simpa only [applyOps, List.foldl_cons, h2] using h4⟩

/-- C15 (`pop` returns `nullopt` only when stopped and empty). For every state of the
blocking queue: when the queue is non-empty `pop` returns the front item and removes
it, also in the state left by `stop()`; `pop` returns `nullopt` exactly when the queue
is empty and stopped; `pop` would block exactly when the queue is empty and not
stopped; and in both of these cases the state is left as it was. -/
theorem C15_pop_outcomes {T : Type} (s : BoundedBlockingQueue T) :
    (∀ item rest, s.queue_ = item :: rest →
      s.pop = (Outcome.returned (some item), { s with queue_ := rest }) ∧
      s.stop.pop = (Outcome.returned (some item), { s.stop with queue_ := rest })) ∧
    (s.pop.1 = Outcome.returned none ↔ (s.queue_ = [] ∧ s.stopped_ = true)) ∧
    (s.pop.1 = Outcome.wouldBlock ↔ (s.queue_ = [] ∧ s.stopped_ = false)) ∧
    (s.queue_ = [] → s.pop.2 = s) := by
  obtain ⟨qu, m, st⟩ := s
  cases qu with
  | nil =>
    cases st <;> simp [BoundedBlockingQueue.pop, BoundedBlockingQueue.stop]
  | cons y r =>
    cases st <;> simp [BoundedBlockingQueue.pop, BoundedBlockingQueue.stop]

/-- C16 (the blocking queue is bounded). For every `maxSize`, in every state
reachable from a newly constructed `BoundedBlockingQueue(maxSize)` by any sequence of
`push`, `pop`, `tryPopFor` and `stop` steps, the number of queued items is at most
`maxSize`; and in every state a `push` that does not find `size < maxSize` leaves
the state as it was (it inserts nothing). -/
theorem C16_queue_bounded {T : Type} (maxSize : Nat) (ops : List (Op T)) :
    (applyOps (BoundedBlockingQueue.new maxSize) ops).queue_.length ≤ maxSize ∧
    ∀ (s : BoundedBlockingQueue T) (item : T),
      ¬ (s.queue_.length < s.maxSize_) → (s.push item).2 = s := by
  constructor
  · obtain ⟨h1, h2⟩ := applyOps_bounded ops (BoundedBlockingQueue.new maxSize)
      (by simp [BoundedBlockingQueue.new])
    rw [h2] at h1
    exact h1
  · intro s item hfull
    simp only [BoundedBlockingQueue.push]
    split_ifs with h1 h2
    · rfl
    · simp only [Bool.or_eq_true, decide_eq_true_eq] at h1
      rcases h1 with h1 | h1
      · exact absurd h1 hfull
      · exact absurd h1 h2
    · rfl

end ProducerConsumer

namespace StateMachine

/-- C21 (Reset always returns the state machine to Idle). For every current state in
Idle, Processing, Error, Done, `dispatch(Event::Reset)` leaves the context in state
Idle; for every current state and every event, `dispatch` leaves the context in one
of the four states (a non-null `current` never becomes null); and the six dispatches
of `main` end in Idle. -/
theorem C21_reset_returns_to_idle :
    (∀ s : State,
      (Context.dispatch { current := some s } Event.Reset).current = some State.Idle) ∧
    (∀ (s : State) (e : Event),
      ∃ s1, (Context.dispatch { current := some s } e).current = some s1) ∧
    mainContext.current = some State.Idle := by
  refine ⟨?_, ?_, by decide⟩
  · intro s
    cases s <;> decide
  · intro s e
    cases s <;> cases e <;> exact ⟨_, rfl⟩

end StateMachine
